import Mathlib

/-!
# Verification of the goonly video-assembly pipeline

Shallow embedding of the audio/timeline assembly pipeline of the goonly
repository (Next.js route `src/app/api/video/route.ts`, the service module
`services/audio.ts`, the subtitle serializer `services/subtitle.ts`, and the
media-overlay planner of the route variant that accepts uploaded media).

Conventions of the embedding:
* JavaScript numbers are modelled as `ℚ` (exact rational arithmetic).
* JavaScript strings are modelled as `List Char`.
* Asynchronous I/O calls to the TTS / alignment backends are modelled by
  explicit outcome values supplied by an environment; the surrounding control
  flow (retry loops, batching, fallbacks, error short-circuiting) is
  translated faithfully from the source.
-/

namespace Goonly

/-- The two fixed characters (`'stewie' | 'peter'` in the source). -/
inductive Character where
  | stewie
  | peter
deriving DecidableEq, Repr

/-- `AudioResult` from `route.ts`: a synthesized clip (buffer kept opaque). -/
structure AudioResult where
  duration : ℚ
  character : Character
  text : List Char
deriving DecidableEq, Repr

/-- `AudioFileData` from `route.ts`: a clip placed on the global timeline. -/
structure AudioFileData where
  character : Character
  text : List Char
  duration : ℚ
  startTime : ℚ
deriving DecidableEq, Repr

/-- `GAP_DURATION = 0.2` (200ms between speakers), `route.ts` line 266. -/
def GAP_DURATION : ℚ := 1/5

/-- The timeline-building loop of `route.ts` lines 269-283: each clip gets
`startTime = currentTime`, then `currentTime += audio.duration + GAP_DURATION`.
Returns the placed segments and the final value of `currentTime`. -/
def buildTimelineAux : List AudioResult → ℚ → List AudioFileData × ℚ
  | [], t => ([], t)
  | a :: rest, t =>
    let (files, tEnd) := buildTimelineAux rest (t + a.duration + GAP_DURATION)
    (⟨a.character, a.text, a.duration, t⟩ :: files, tEnd)

/-- Timeline assembly starting from `currentTime = 0` (`route.ts` line 267). -/
def buildTimeline (results : List AudioResult) : List AudioFileData × ℚ :=
  buildTimelineAux results 0

/-- `totalDuration = currentTime - GAP_DURATION + 1` (`route.ts` line 324):
drop the trailing gap, add the 1-second tail buffer. -/
def totalDuration (results : List AudioResult) : ℚ :=
  (buildTimeline results).2 - GAP_DURATION + 1

/-- Running clock value after placing the first `i` clips. -/
def prefixClock (rs : List AudioResult) (i : ℕ) : ℚ :=
  ((rs.take i).map (fun r => r.duration + GAP_DURATION)).sum

/-! ## Timing estimators (`services/audio.ts` and `route.ts`) -/

/-- JS `text.split(' ')`: split on every single space character; consecutive
spaces yield empty pieces, and the result is never the empty list. -/
def splitOnSpace : List Char → List (List Char)
  | [] => [[]]
  | c :: rest =>
    if c = ' ' then [] :: splitOnSpace rest
    else
      match splitOnSpace rest with
      | [] => [[c]]
      | w :: ws => (c :: w) :: ws

/-- JS `String.prototype.trim`: drop leading and trailing whitespace. -/
def trimChars (cs : List Char) : List Char :=
  ((cs.dropWhile Char.isWhitespace).reverse.dropWhile Char.isWhitespace).reverse

/-- `text.split(' ').filter(word => word.trim() !== '')`, shared by both
timing estimators. -/
def splitWords (text : List Char) : List (List Char) :=
  (splitOnSpace text).filter (fun w => !(trimChars w).isEmpty)

/-- A word timing local to one clip; `endT` is the source field `end`
(a reserved word in Lean). -/
structure RawWordTiming where
  word : List Char
  start : ℚ
  endT : ℚ
deriving DecidableEq, Repr

/-- The `currentTime` accumulation loop of the uniform estimator
(`services/audio.ts` lines 138-151): each word spans `avg` seconds. -/
def uniformAux (avg : ℚ) : List (List Char) → ℚ → List RawWordTiming
  | [], _ => []
  | w :: rest, t => ⟨w, t, t + avg⟩ :: uniformAux avg rest (t + avg)

/-- `estimateWordTiming` of `services/audio.ts` (uniform split policy):
even distribution of `duration` over the words. -/
def estimateWordTimingUniform (text : List Char) (duration : ℚ) :
    List RawWordTiming :=
  let words := splitWords text
  if words.length = 0 then []
  else uniformAux (duration / (words.length : ℚ)) words 0

/-- `/[aeiouAEIOU]/` of `route.ts` line 182. -/
def isVowel (c : Char) : Bool :=
  c = 'a' ∨ c = 'e' ∨ c = 'i' ∨ c = 'o' ∨ c = 'u' ∨
  c = 'A' ∨ c = 'E' ∨ c = 'I' ∨ c = 'O' ∨ c = 'U'

/-- Punctuation pause of `route.ts` lines 178-179: `+0.3` for a word ending
in `.!?`, `+0.15` for one ending in `,;:`. -/
def wordPunctPause (w : List Char) : ℚ :=
  match w.getLast? with
  | some c =>
    if c = '.' ∨ c = '!' ∨ c = '?' then 3/10
    else if c = ',' ∨ c = ';' ∨ c = ':' then 3/20
    else 0
  | none => 0

/-- Syllable estimate of `route.ts` lines 182-183: vowel count, minimum 1. -/
def wordSyllables (w : List Char) : ℕ :=
  max 1 (w.countP isVowel)

/-- Per-word weight of `route.ts` lines 171-187:
`0.3 + 0.05*length + punctuationPause + 0.1*syllables`. -/
def wordBaseDuration (w : List Char) : ℚ :=
  3/10 + (w.length : ℚ) * (1/20) + wordPunctPause w +
    (wordSyllables w : ℚ) * (1/10)

/-- The `currentTime` accumulation loop of the weighted estimator
(`route.ts` lines 193-203) over `(word, scaledDuration)` pairs. -/
def weightedAux : List (List Char × ℚ) → ℚ → List RawWordTiming
  | [], _ => []
  | (w, d) :: rest, t => ⟨w, t, t + d⟩ :: weightedAux rest (t + d)

/-- `estimateWordTiming` of `route.ts` (weighted heuristic policy): each word
weighted by `wordBaseDuration`, scaled so the weights sum to `duration`. -/
def estimateWordTimingWeighted (text : List Char) (duration : ℚ) :
    List RawWordTiming :=
  let words := splitWords text
  let wordDurations := words.map wordBaseDuration
  let totalEstimated := wordDurations.sum
  let scaleFactor := duration / totalEstimated
  weightedAux (words.zip (wordDurations.map (· * scaleFactor))) 0

/-- Total duration covered by a word-timing list. -/
def sumDur (l : List RawWordTiming) : ℚ :=
  (l.map (fun r => r.endT - r.start)).sum

/-- Start times are monotonically non-decreasing. -/
def startsMono (l : List RawWordTiming) : Prop :=
  List.Chain' (fun a b => a.start ≤ b.start) l

/-! ## Alignment client (`getWhisperWordTimings`, `services/audio.ts`) -/

/-- A raw word segment of the whisper backend's JSON response. -/
structure WordSegment where
  word : List Char
  start : ℚ
  endT : ℚ
deriving DecidableEq, Repr

/-- Outcome of one call to the whisper-timestamped backend: the fetch threw,
the response was non-OK, or a parsed `word_segments` array was obtained. -/
inductive AlignOutcome where
  | fetchError
  | notOk (status : ℕ)
  | ok (wordSegments : List WordSegment)
deriving DecidableEq, Repr

/-- The backend outcomes that the source treats as alignment failure:
a thrown error, a non-OK response, or a response with zero word segments. -/
def FailureOutcome : AlignOutcome → Prop
  | .fetchError => True
  | .notOk _ => True
  | .ok segs => segs = []

/-- `getWhisperWordTimings` of `services/audio.ts` lines 82-117: a response
with at least one word segment is accepted (each word trimmed); a thrown
fetch error, a non-OK response, or zero segments falls through to the catch
block, which logs and returns `estimateWordTiming(text, audioDuration)` with
the duration measured from the audio file (lines 113-116). -/
def getWhisperWordTimings (outcome : AlignOutcome) (text : List Char)
    (audioDuration : ℚ) : List RawWordTiming :=
  match outcome with
  | .ok segs =>
    if segs.length > 0 then
      segs.map (fun s => ⟨trimChars s.word, s.start, s.endT⟩)
    else estimateWordTimingUniform text audioDuration
  | _ => estimateWordTimingUniform text audioDuration

/-! ## Speech synthesis client (`generateAudio`, `services/audio.ts`) -/

/-- Outcome of one synthesis attempt: success (with the probed clip
duration) or one of the failure modes of the try block. -/
inductive AttemptResult where
  | ok (duration : ℚ)
  | httpError (status : ℕ)
  | emptyBuffer
  | abort
  | fetchError
deriving DecidableEq, Repr

/-- Whether an attempt succeeded. -/
def AttemptResult.isOk : AttemptResult → Bool
  | .ok _ => true
  | _ => false

/-- The `error.name === 'AbortError'` test on the last attempt: the 120s
timeout fired. -/
def AttemptResult.isAbort : AttemptResult → Bool
  | .abort => true
  | _ => false

/-- Errors thrown by `generateAudio`: the TTS-timeout message, the message
naming the character and the attempt count, and the unreachable trailing
throw after the loop (line 79 of `services/audio.ts`). -/
inductive SynthError where
  | timeout (character : Character)
  | failed (character : Character) (attempts : ℕ)
  | exhausted (character : Character)
deriving DecidableEq, Repr

/-- Result of running `generateAudio`: the value or thrown error, the number
of attempts made, and the backoff delays (in seconds) slept between
attempts. -/
structure GenResult where
  result : Except SynthError AudioResult
  attempts : ℕ
  waits : List ℚ
deriving Repr

/-- The retry loop of `generateAudio` (`services/audio.ts` lines 6-80): for
`attempt` in `0..retries`, run the attempt; on success return the clip; on
the final failing attempt throw the timeout error for an abort and otherwise
the error naming the character and `retries + 1` attempts; before retrying
sleep `2^(attempt+1)` seconds. `fuel` bounds the loop and is supplied as
`retries + 1` by `generateAudio`. -/
def generateAudioGo (text : List Char) (character : Character)
    (outcomes : ℕ → AttemptResult) (retries : ℕ) :
    ℕ → ℕ → GenResult
  | 0, _ => ⟨.error (.exhausted character), 0, []⟩
  | fuel + 1, attempt =>
    match outcomes attempt with
    | .ok d => ⟨.ok ⟨d, character, text⟩, 1, []⟩
    | e =>
      if attempt = retries then
        ⟨.error (if e.isAbort then .timeout character
                 else .failed character (retries + 1)), 1, []⟩
      else
        let r := generateAudioGo text character outcomes retries fuel
          (attempt + 1)
        ⟨r.result, r.attempts + 1, ((2 : ℚ) ^ (attempt + 1)) :: r.waits⟩

/-- `generateAudio(text, character, retries)` with the per-attempt backend
outcomes supplied by the environment. -/
def generateAudio (text : List Char) (character : Character)
    (outcomes : ℕ → AttemptResult) (retries : ℕ) : GenResult :=
  generateAudioGo text character outcomes retries (retries + 1) 0

/-! ## The request pipeline (`POST` of `route.ts`) -/

/-- One conversation turn (`ConversationTurn` of `types/index.ts`): one line
for each character, plus the optional media cues of the media-enabled route
variant. -/
structure SpeechTask where
  text : List Char
  character : Character
deriving DecidableEq, Repr

/-- A media cue attached to a turn (`ImageOverlay` of `types/index.ts`). -/
structure ImageOverlayCue where
  filename : List Char
  startTime : ℚ
  duration : ℚ
  description : List Char
deriving DecidableEq, Repr

/-- `ConversationTurn` of `types/index.ts`. -/
structure ConversationTurn where
  stewie : List Char
  peter : List Char
  imageOverlays : List ImageOverlayCue
deriving DecidableEq, Repr

/-- Task flattening of `route.ts` lines 234-238: for each turn push the
stewie line, then the peter line. -/
def audioTasks (conversation : List ConversationTurn) : List SpeechTask :=
  conversation.flatMap (fun turn =>
    [⟨turn.stewie, .stewie⟩, ⟨turn.peter, .peter⟩])

/-- `Promise.all` over one batch: every task in the batch is invoked; the
first error (by position) rejects the batch. -/
def collectBatch (f : ℕ → SpeechTask → Except SynthError AudioResult) :
    List (ℕ × SpeechTask) → Except SynthError (List AudioResult)
  | [] => .ok []
  | (i, t) :: rest =>
    match f i t, collectBatch f rest with
    | .ok r, .ok rs => .ok (r :: rs)
    | .error e, _ => .error e
    | .ok _, .error e => .error e

/-- The batched synthesis loop of `route.ts` lines 241-260 with
`BATCH_SIZE = 2`: tasks are processed two at a time; a failing batch aborts
the loop (later batches are not started). Also returns the number of
synthesis calls that were started. -/
def runBatches (f : ℕ → SpeechTask → Except SynthError AudioResult) :
    List (ℕ × SpeechTask) → Except SynthError (List AudioResult) × ℕ
  | [] => (.ok [], 0)
  | [t] =>
    match collectBatch f [t] with
    | .error e => (.error e, 1)
    | .ok rs => (.ok rs, 1)
  | t₁ :: t₂ :: rest =>
    match collectBatch f [t₁, t₂] with
    | .error e => (.error e, 2)
    | .ok rs =>
      match runBatches f rest with
      | (.error e, c₂) => (.error e, 2 + c₂)
      | (.ok rs₂, c₂) => (.ok (rs ++ rs₂), 2 + c₂)

/-- A global word timing (`WordTiming` of `types/index.ts`). -/
structure WordTiming where
  text : List Char
  startTime : ℚ
  endTime : ℚ
  character : Character
deriving DecidableEq, Repr

/-- A character-visibility interval (`CharacterTimeline` entry). -/
structure CharacterInterval where
  character : Character
  startTime : ℚ
  endTime : ℚ
deriving DecidableEq, Repr

/-- The per-clip word-timing loop of `route.ts` lines 291-321: align each
clip (with fallback), shift local timings by the clip's `startTime`, and
skip words that are empty after trimming. -/
def mkWordTimeline (align : ℕ → AlignOutcome) (files : List AudioFileData) :
    List WordTiming :=
  files.enum.flatMap (fun p =>
    ((getWhisperWordTimings (align p.1) p.2.text p.2.duration).filter
        (fun wt => !(trimChars wt.word).isEmpty)).map
      (fun wt => ⟨wt.word, p.2.startTime + wt.start,
        p.2.startTime + wt.endT, p.2.character⟩))

/-- The character timeline of `route.ts` lines 292-297: one interval per
clip, spanning the clip. -/
def mkCharacterTimeline (files : List AudioFileData) :
    List CharacterInterval :=
  files.map (fun f => ⟨f.character, f.startTime, f.startTime + f.duration⟩)

/-- The scratch artifacts a request writes under its temp directory. -/
inductive ScratchFile where
  | tempDir
  | audio (i : ℕ)
  | combinedAudio
  | subtitles
  | output
deriving DecidableEq, Repr

/-- The fatal error classes of the `POST` handler. -/
inductive PostError where
  | noConversation
  | synthesis (e : SynthError)
  | missingBackground
  | missingStewie
  | missingPeter
  | concatFailed
  | renderFailed
deriving DecidableEq, Repr

/-- Environment of one request: backend outcomes per synthesis task and
attempt, alignment outcomes per clip, asset existence, and whether the two
ffmpeg invocations succeed. -/
structure PostEnv where
  synth : ℕ → ℕ → AttemptResult
  align : ℕ → AlignOutcome
  backgroundExists : Bool
  stewieImageExists : Bool
  peterImageExists : Bool
  concatOk : Bool
  renderOk : Bool

/-- Observable effects of one request: synthesis calls started, whether the
renderer was invoked, and the scratch artifacts written and deleted. -/
structure PostTrace where
  ttsCalls : ℕ
  renderCalled : Bool
  written : List ScratchFile
  deleted : List ScratchFile
deriving DecidableEq, Repr

/-- The data assembled on the success path. -/
structure PostSuccess where
  wordTimeline : List WordTiming
  characterTimeline : List CharacterInterval
  totalDuration : ℚ
deriving DecidableEq, Repr

/-- The `POST` handler of `route.ts`, step for step: reject an empty
conversation (lines 215-217); make the temp directory; flatten tasks and run
batched synthesis (234-260); write the per-line audio files and build the
timeline (265-283); build the word and character timelines (285-321);
compute the total duration (324); check the background video and the two
character images (337-340); combine audio (342-375); write subtitles
(377-419); render (462-493); on success clean up every scratch file and the
temp directory (505-514); the catch block (523-530) deletes nothing. -/
def runPOST (env : PostEnv) (conversation : List ConversationTurn) :
    Except PostError PostSuccess × PostTrace :=
  if conversation.length = 0 then
    (.error .noConversation, ⟨0, false, [], []⟩)
  else
    let tasks := (audioTasks conversation).enum
    let synthFn := fun i (t : SpeechTask) =>
      (generateAudio t.text t.character (env.synth i) 3).result
    match runBatches synthFn tasks with
    | (.error e, calls) =>
      (.error (.synthesis e), ⟨calls, false, [.tempDir], []⟩)
    | (.ok results, calls) =>
      let audioWritten := (List.range results.length).map ScratchFile.audio
      let written₀ := ScratchFile.tempDir :: audioWritten
      let files := (buildTimeline results).1
      let total := (buildTimeline results).2 - GAP_DURATION + 1
      if env.backgroundExists = false then
        (.error .missingBackground, ⟨calls, false, written₀, []⟩)
      else if env.stewieImageExists = false then
        (.error .missingStewie, ⟨calls, false, written₀, []⟩)
      else if env.peterImageExists = false then
        (.error .missingPeter, ⟨calls, false, written₀, []⟩)
      else if env.concatOk = false then
        (.error .concatFailed, ⟨calls, false, written₀, []⟩)
      else
        let written₁ := written₀ ++ [.combinedAudio, .subtitles]
        if env.renderOk = false then
          (.error .renderFailed, ⟨calls, true, written₁, []⟩)
        else
          (.ok ⟨mkWordTimeline env.align files, mkCharacterTimeline files,
              total⟩,
            ⟨calls, true, written₁ ++ [.output],
              audioWritten ++
                [.output, .combinedAudio, .subtitles, .tempDir]⟩)

/-! ## Media-overlay planner (the media-enabled `POST` route variant) -/

/-- Type of an uploaded media file (`'image' | 'video'`). -/
inductive MediaType where
  | image
  | video
deriving DecidableEq, Repr

/-- An uploaded media file (payload kept opaque). -/
structure MediaFileInput where
  filename : List Char
  mediaType : MediaType
deriving DecidableEq, Repr

/-- The media-saving loop of the media-enabled route, lines 36-46: ONLY
files with `type === 'image'` are decoded and saved into the temp directory;
the saved map is keyed by filename. -/
def savedMediaFilenames (mediaFiles : List MediaFileInput) :
    List (List Char) :=
  (mediaFiles.filter (fun m => m.mediaType = MediaType.image)).map
    (fun m => m.filename)

/-- A planned media overlay interval. -/
structure MediaOverlayInterval where
  filename : List Char
  startTime : ℚ
  endTime : ℚ
  description : List Char
deriving DecidableEq, Repr

/-- Line 148 of the media-enabled route:
`conversationIndex < audioFiles.length ? audioFiles[conversationIndex*2]?.startTime || 0 : 0`
(`x || 0` maps a missing element to 0 and keeps any number otherwise, since
`0 || 0` is still 0). -/
def turnStartTime (idx : ℕ) (audioFiles : List AudioFileData) : ℚ :=
  if idx < audioFiles.length then
    ((audioFiles[idx * 2]?).map (fun f => f.startTime)).getD 0
  else 0

/-- The media-cue planning loop of the media-enabled route, lines 144-167:
for each turn with cues, resolve each cue's filename against the saved
files; a resolved cue becomes an interval starting at the turn's start plus
the cue offset and ending `duration` later; an unresolved cue is skipped. -/
def processImageOverlays (conversation : List ConversationTurn)
    (saved : List (List Char)) (audioFiles : List AudioFileData) :
    List MediaOverlayInterval :=
  conversation.enum.flatMap (fun p =>
    if p.2.imageOverlays.length > 0 then
      p.2.imageOverlays.filterMap (fun overlay =>
        if overlay.filename ∈ saved then
          some ⟨overlay.filename,
            turnStartTime p.1 audioFiles + overlay.startTime,
            turnStartTime p.1 audioFiles + overlay.startTime +
              overlay.duration,
            overlay.description⟩
        else none)
    else [])

/-! ## Subtitle serializer (`createSubtitleContent`, `services/subtitle.ts`) -/

/-- Digit character for `Number.prototype.toString` (base 10). -/
def digitChar (n : ℕ) : Char := Char.ofNat (48 + n)

/-- Base-10 digits of a natural number, most significant first; `fuel`
bounds the recursion and is supplied as `n + 1`. -/
def natCharsAux : ℕ → ℕ → List Char
  | 0, _ => []
  | fuel + 1, n =>
    if n < 10 then [digitChar n]
    else natCharsAux fuel (n / 10) ++ [digitChar (n % 10)]

/-- `n.toString()` for a natural number. -/
def natChars (n : ℕ) : List Char := natCharsAux (n + 1) n

/-- `i.toString()` for an integer. -/
def intChars (i : ℤ) : List Char :=
  if i < 0 then '-' :: natChars i.natAbs else natChars i.toNat

/-- `String.prototype.padStart(2, '0')`. -/
def padStart2 (cs : List Char) : List Char :=
  List.replicate (2 - cs.length) '0' ++ cs

/-- JS `Math.floor`. -/
def jsFloor (q : ℚ) : ℤ := ⌊q⌋

/-- JS truncation toward zero (used by the `%` operator). -/
def ratTrunc (q : ℚ) : ℤ := q.num / (q.den : ℤ)

/-- JS remainder `a % b` (sign of the dividend). -/
def jsMod (a b : ℚ) : ℚ := a - b * (ratTrunc (a / b) : ℚ)

/-- `formatAssTime` of `services/subtitle.ts` lines 38-45: `h:mm:ss.cc`. -/
def formatAssTime (seconds : ℚ) : List Char :=
  intChars (jsFloor (seconds / 3600)) ++ ':' ::
    padStart2 (intChars (jsFloor (jsMod seconds 3600 / 60))) ++ ':' ::
    padStart2 (intChars (jsFloor (jsMod seconds 60))) ++ '.' ::
    padStart2 (intChars (jsFloor (jsMod seconds 1 * 100)))

/-- One character-wise replacement pass of `String.prototype.replace` with a
global single-character pattern. -/
def charRep (sep : Char) (rep : List Char) (x : Char) : List Char :=
  if x = sep then rep else [x]

/-- `replace(/sep/g, rep)` on the whole string. -/
def replaceChar (sep : Char) (rep : List Char) (cs : List Char) :
    List Char :=
  cs.flatMap (charRep sep rep)

/-- The escaping chain of `services/subtitle.ts` lines 25-28: first escape
backslashes, then opening braces, then closing braces. -/
def escapeAssText (cs : List Char) : List Char :=
  replaceChar '\x7d' ['\\', '\x7d']
    (replaceChar '\x7b' ['\\', '\x7b']
      (replaceChar '\\' ['\\', '\\'] cs))

/-- Single-pass specification of the escaping: each structurally significant
character (backslash and the two braces) is prefixed with a backslash, all
other characters pass through unchanged. -/
def escChar (c : Char) : List Char :=
  if c = '\\' then ['\\', '\\']
  else if c = '\x7b' then ['\\', '\x7b']
  else if c = '\x7d' then ['\\', '\x7d']
  else [c]

/-- The two fixed styles: `word.character === 'stewie' ? 'Stewie' : 'Peter'`
(line 23). -/
def styleName : Character → List Char
  | .stewie => "Stewie".data
  | .peter => "Peter".data

/-- The `{\fad(50,50)\pos(540,960)}` override block prefixed to every
event's text (line 30). -/
def animatedPrefix : List Char := "\x7b\\fad(50,50)\\pos(540,960)\x7d".data

/-- One ASS `Dialogue` event per word (lines 20-33). -/
def assEventLine (w : WordTiming) : List Char :=
  "Dialogue: 0,".data ++ formatAssTime w.startTime ++ ",".data ++
    formatAssTime w.endTime ++ ",".data ++ styleName w.character ++
    ",,0,0,500,,".data ++ animatedPrefix ++ escapeAssText (trimChars w.text)

/-- The fixed ASS header of `createSubtitleContent` (lines 4-18). -/
def assHeader : List Char :=
  ("[Script Info]\nTitle: Peter and Stewie Conversation\nScriptType: v4.00+\nPlayResX: 1080\nPlayResY: 1920\nWrapStyle: 0\n\n[V4+ Styles]\nFormat: Name, Fontname, Fontsize, PrimaryColour, SecondaryColour, OutlineColour, BackColour, Bold, Italic, Underline, StrikeOut, ScaleX, ScaleY, Spacing, Angle, BorderStyle, Outline, Shadow, Alignment, MarginL, MarginR, MarginV, Encoding\nStyle: Stewie,Arial Black,140,&H00FFFFFF,&H00FFFFFF,&H00000000,&H80000000,1,0,0,0,100,100,0,0,1,8,3,2,50,50,500,1\nStyle: Peter,Arial Black,140,&H00FFFFFF,&H00FFFFFF,&H00000000,&H80000000,1,0,0,0,100,100,0,0,1,8,3,2,50,50,500,1\n\n[Events]\nFormat: Layer, Start, End, Style, Name, MarginL, MarginR, MarginV, Effect, Text\n").data

/-- `Array.prototype.join(sep)` with a one-character separator. -/
def joinWith (sep : Char) : List (List Char) → List Char
  | [] => []
  | [l] => l
  | l :: rest => l ++ sep :: joinWith sep rest

/-- `createSubtitleContent` of `services/subtitle.ts`: header followed by
the newline-joined event lines. -/
def createSubtitleContent (wordTimeline : List WordTiming) : List Char :=
  assHeader ++ joinWith '\n' (wordTimeline.map assEventLine)

/-- Split a character list at every occurrence of `sep` (the line structure
of the serialized events). -/
def splitOnChar (sep : Char) : List Char → List (List Char)
  | [] => [[]]
  | c :: rest =>
    if c = sep then [] :: splitOnChar sep rest
    else
      match splitOnChar sep rest with
      | [] => [[c]]
      | w :: ws => (c :: w) :: ws

/-! ## Lemmas and theorems -/

lemma buildTimelineAux_length (rs : List AudioResult) (t : ℚ) :
    (buildTimelineAux rs t).1.length = rs.length := by
  induction rs generalizing t with
  | nil => rfl
  | cons a rest ih => simp [buildTimelineAux, ih]

lemma buildTimelineAux_get (rs : List AudioResult) (t : ℚ) (i : ℕ)
    (h : i < (buildTimelineAux rs t).1.length) :
    (buildTimelineAux rs t).1.get ⟨i, h⟩ =
      { character := (rs.get ⟨i, by rwa [buildTimelineAux_length] at h⟩).character
        text := (rs.get ⟨i, by rwa [buildTimelineAux_length] at h⟩).text
        duration := (rs.get ⟨i, by rwa [buildTimelineAux_length] at h⟩).duration
        startTime := t + prefixClock rs i } := by
  induction rs generalizing t i with
  | nil => rw [buildTimelineAux_length] at h; simp at h
  | cons a rest ih =>
    cases i with
    | zero => simp [buildTimelineAux, prefixClock]
    | succ j =>
      have h' : j < (buildTimelineAux rest (t + a.duration + GAP_DURATION)).1.length := by
        have hh := h
        rw [buildTimelineAux_length] at hh ⊢
        simpa using Nat.lt_of_succ_lt_succ (by simpa using hh)
      have hrec := ih (t + a.duration + GAP_DURATION) j h'
      simp only [buildTimelineAux, List.get] at hrec ⊢
      rw [hrec]
      simp [prefixClock, List.take_succ_cons]
      ring

lemma buildTimelineAux_clock (rs : List AudioResult) (t : ℚ) :
    (buildTimelineAux rs t).2 =
      t + (rs.map (fun r => r.duration + GAP_DURATION)).sum := by
  induction rs generalizing t with
  | nil => simp [buildTimelineAux]
  | cons a rest ih =>
    simp [buildTimelineAux, ih]
    ring

lemma prefixClock_succ (rs : List AudioResult) (i : ℕ) (h : i < rs.length) :
    prefixClock rs (i + 1) =
      prefixClock rs i + (rs.get ⟨i, h⟩).duration + GAP_DURATION := by
  unfold prefixClock
  rw [List.take_succ, List.getElem?_eq_getElem h, List.map_append, List.sum_append]
  simp only [Option.toList_some, List.map_cons, List.map_nil, List.sum_cons,
    List.sum_nil, List.get_eq_getElem]
  ring

lemma prefixClock_mono (rs : List AudioResult)
    (hnn : ∀ r ∈ rs, 0 ≤ r.duration) {i j : ℕ} (hij : i ≤ j) :
    prefixClock rs i ≤ prefixClock rs j := by
  induction j, hij using Nat.le_induction with
  | base => exact le_refl _
  | succ k hk ih =>
    refine le_trans ih ?_
    by_cases hkl : k < rs.length
    · rw [prefixClock_succ rs k hkl]
      have : 0 ≤ (rs.get ⟨k, hkl⟩).duration := hnn _ (List.get_mem _ _ _)
      have hg : (0 : ℚ) < GAP_DURATION := by norm_num [GAP_DURATION]
      linarith
    · unfold prefixClock
      rw [List.take_of_length_le (by omega), List.take_of_length_le (by omega)]

/-- C1: segment start times are assigned sequentially. Segment 0 starts at 0;
each later segment starts where the previous one ended plus the fixed gap;
with non-negative durations the start times are strictly increasing and the
segment intervals `[start, start + duration]` never overlap. -/
theorem timeline_starts_sequential (rs : List AudioResult) :
    (∀ h0 : 0 < (buildTimeline rs).1.length,
      ((buildTimeline rs).1.get ⟨0, h0⟩).startTime = 0) ∧
    (∀ i (h : i + 1 < (buildTimeline rs).1.length),
      ((buildTimeline rs).1.get ⟨i + 1, h⟩).startTime =
        ((buildTimeline rs).1.get ⟨i, by omega⟩).startTime +
          ((buildTimeline rs).1.get ⟨i, by omega⟩).duration + GAP_DURATION) ∧
    ((∀ r ∈ rs, 0 ≤ r.duration) →
      ∀ i j (hi : i < (buildTimeline rs).1.length)
        (hj : j < (buildTimeline rs).1.length), i < j →
        ((buildTimeline rs).1.get ⟨i, hi⟩).startTime <
            ((buildTimeline rs).1.get ⟨j, hj⟩).startTime ∧
        ((buildTimeline rs).1.get ⟨i, hi⟩).startTime +
            ((buildTimeline rs).1.get ⟨i, hi⟩).duration <
          ((buildTimeline rs).1.get ⟨j, hj⟩).startTime) := by
  have hget : ∀ i (h : i < (buildTimeline rs).1.length),
      ((buildTimeline rs).1.get ⟨i, h⟩).startTime = prefixClock rs i := by
    intro i h
    simp only [buildTimeline] at h ⊢
    rw [buildTimelineAux_get rs 0 i h]
    simp
  have hdur : ∀ i (h : i < (buildTimeline rs).1.length),
      ((buildTimeline rs).1.get ⟨i, h⟩).duration =
        (rs.get ⟨i, by
          simp only [buildTimeline, buildTimelineAux_length] at h; exact h⟩).duration := by
    intro i h
    simp only [buildTimeline] at h ⊢
    rw [buildTimelineAux_get rs 0 i h]
  refine ⟨?_, ?_, ?_⟩
  · intro h0
    rw [hget 0 h0]
    simp [prefixClock]
  · intro i h
    have hi : i < rs.length := by
      simp only [buildTimeline, buildTimelineAux_length] at h; omega
    rw [hget (i+1) h, hget i (by omega), hdur i (by omega),
      prefixClock_succ rs i hi]
  · intro hnn i j hi hj hij
    have hg : (0 : ℚ) < GAP_DURATION := by norm_num [GAP_DURATION]
    have hilen : i < rs.length := by
      simp only [buildTimeline, buildTimelineAux_length] at hi; exact hi
    have hstep := prefixClock_succ rs i hilen
    have hmono := prefixClock_mono rs hnn (Nat.succ_le_of_lt hij)
    have hdnn : 0 ≤ (rs.get ⟨i, hilen⟩).duration := hnn _ (List.get_mem _ _ _)
    rw [hget i hi, hget j hj, hdur i hi]
    constructor
    · linarith
    · linarith

/-- Witness for `timeline_starts_sequential` at a concrete two-clip input. -/
theorem timeline_starts_sequential_witness :
    ((buildTimeline [⟨3, .stewie, []⟩, ⟨2, .peter, []⟩]).1.get
        ⟨1, by norm_num [buildTimeline, buildTimelineAux]⟩).startTime = 16/5 ∧
    ((buildTimeline [⟨3, .stewie, []⟩, ⟨2, .peter, []⟩]).1.get
        ⟨0, by norm_num [buildTimeline, buildTimelineAux]⟩).startTime +
      ((buildTimeline [⟨3, .stewie, []⟩, ⟨2, .peter, []⟩]).1.get
        ⟨0, by norm_num [buildTimeline, buildTimelineAux]⟩).duration <
      ((buildTimeline [⟨3, .stewie, []⟩, ⟨2, .peter, []⟩]).1.get
        ⟨1, by norm_num [buildTimeline, buildTimelineAux]⟩).startTime := by
  constructor
  · norm_num [buildTimeline, buildTimelineAux, GAP_DURATION, List.get]
  · exact ((timeline_starts_sequential [⟨3, .stewie, []⟩, ⟨2, .peter, []⟩]).2.2
      (by intro r hr
          simp only [List.mem_cons, List.mem_singleton] at hr
          rcases hr with h | h | h
          · subst h; norm_num
          · subst h; norm_num
          · exact absurd h (by simp))
      0 1 (by norm_num [buildTimeline, buildTimelineAux])
      (by norm_num [buildTimeline, buildTimelineAux]) (by norm_num)).2

lemma sum_map_add_gap (rs : List AudioResult) :
    (rs.map (fun r => r.duration + GAP_DURATION)).sum =
      (rs.map (fun r => r.duration)).sum + rs.length * GAP_DURATION := by
  induction rs with
  | nil => simp
  | cons a rest ih =>
    simp [ih]
    ring

/-- C2: for a non-empty list of `n` clips the total plan duration is
`(sum of clip durations) + (n-1) * GAP + 1`, which is at least the sum of all
clip durations plus all `n-1` inter-clip gaps (the last segment is never
truncated). -/
theorem total_duration_formula (rs : List AudioResult) (_hne : rs ≠ []) :
    totalDuration rs =
      (rs.map (fun r => r.duration)).sum +
        ((rs.length : ℚ) - 1) * GAP_DURATION + 1 ∧
    (rs.map (fun r => r.duration)).sum +
        ((rs.length : ℚ) - 1) * GAP_DURATION ≤ totalDuration rs := by
  have hformula : totalDuration rs =
      (rs.map (fun r => r.duration)).sum +
        ((rs.length : ℚ) - 1) * GAP_DURATION + 1 := by
    unfold totalDuration buildTimeline
    rw [buildTimelineAux_clock, sum_map_add_gap]
    ring
  refine ⟨hformula, ?_⟩
  rw [hformula]
  linarith

/-- Witness for `total_duration_formula` at a concrete two-clip input. -/
theorem total_duration_formula_witness :
    totalDuration [⟨3, .stewie, []⟩, ⟨2, .peter, []⟩] = 31/5 ∧
    (5 : ℚ) + 1/5 ≤ totalDuration [⟨3, .stewie, []⟩, ⟨2, .peter, []⟩] := by
  have h := total_duration_formula [⟨3, .stewie, []⟩, ⟨2, .peter, []⟩] (by simp)
  constructor
  · rw [h.1]
    norm_num [GAP_DURATION]
  · refine le_trans (le_of_eq ?_) h.2
    norm_num [GAP_DURATION]

lemma splitOnSpace_ne_nil (cs : List Char) : splitOnSpace cs ≠ [] := by
  cases cs with
  | nil => simp [splitOnSpace]
  | cons c rest =>
    by_cases h : c = ' '
    · simp [splitOnSpace, h]
    · simp only [splitOnSpace, if_neg h]
      cases splitOnSpace rest <;> simp

lemma splitOnSpace_join (cs : List Char) :
    (splitOnSpace cs).join = cs.filter (fun c => c ≠ ' ') := by
  induction cs with
  | nil => simp [splitOnSpace]
  | cons c rest ih =>
    by_cases h : c = ' '
    · simp [splitOnSpace, h, List.filter_cons, ih]
    · simp only [splitOnSpace, if_neg h]
      rcases hs : splitOnSpace rest with _ | ⟨w, ws⟩
      · exact absurd hs (splitOnSpace_ne_nil rest)
      · rw [hs] at ih
        simp only [List.join_cons] at ih
        simp [List.filter_cons, h]
        simpa using ih

lemma trimChars_eq_nil_iff (w : List Char) :
    trimChars w = [] ↔ ∀ c ∈ w, c.isWhitespace := by
  unfold trimChars
  rw [List.reverse_eq_nil_iff, List.dropWhile_eq_nil_iff]
  constructor
  · intro h c hc
    have hsplit : c ∈ w.takeWhile Char.isWhitespace ++
        w.dropWhile Char.isWhitespace := by
      rw [List.takeWhile_append_dropWhile]; exact hc
    rcases List.mem_append.mp hsplit with hm | hm
    · exact List.mem_takeWhile_imp hm
    · exact h c (List.mem_reverse.mpr hm)
  · intro h c hc
    exact h c ((List.dropWhile_sublist _).subset (List.mem_reverse.mp hc))

lemma splitWords_eq_nil_of_whitespace (text : List Char)
    (h : ∀ c ∈ text, c.isWhitespace) : splitWords text = [] := by
  unfold splitWords
  rw [List.filter_eq_nil]
  intro w hw
  have hws : ∀ c ∈ w, c.isWhitespace := by
    intro c hc
    have hjoin : c ∈ (splitOnSpace text).join := List.mem_join.mpr ⟨w, hw, hc⟩
    rw [splitOnSpace_join] at hjoin
    exact h c (List.mem_of_mem_filter hjoin)
  simp [List.isEmpty_iff, (trimChars_eq_nil_iff w).mpr hws]

lemma splitWords_ne_nil (text : List Char) (c : Char) (hc : c ∈ text)
    (hnw : ¬ c.isWhitespace) : splitWords text ≠ [] := by
  have hcs : c ≠ ' ' := fun h => hnw (by rw [h]; rfl)
  have hjoin : c ∈ (splitOnSpace text).join := by
    rw [splitOnSpace_join]
    exact List.mem_filter.mpr ⟨hc, by simpa using hcs⟩
  rcases List.mem_join.mp hjoin with ⟨w, hw, hcw⟩
  have hne : ¬ (trimChars w).isEmpty := by
    rw [List.isEmpty_iff]
    intro hnil
    exact hnw ((trimChars_eq_nil_iff w).mp hnil c hcw)
  intro hcon
  have : w ∈ splitWords text := by
    unfold splitWords
    exact List.mem_filter.mpr ⟨hw, by simpa using hne⟩
  rw [hcon] at this
  exact absurd this (List.not_mem_nil w)

lemma uniformAux_sumDur (avg : ℚ) (ws : List (List Char)) (t : ℚ) :
    sumDur (uniformAux avg ws t) = ws.length * avg := by
  induction ws generalizing t with
  | nil => simp [uniformAux, sumDur]
  | cons w rest ih =>
    simp only [uniformAux, sumDur, List.map_cons, List.sum_cons] at ih ⊢
    rw [ih]
    simp only [List.length_cons]
    push_cast
    ring

lemma weightedAux_sumDur (l : List (List Char × ℚ)) (t : ℚ) :
    sumDur (weightedAux l t) = (l.map Prod.snd).sum := by
  induction l generalizing t with
  | nil => simp [weightedAux, sumDur]
  | cons p rest ih =>
    rcases p with ⟨w, d⟩
    simp only [weightedAux, sumDur, List.map_cons, List.sum_cons] at ih ⊢
    rw [ih]
    ring

lemma zip_map_snd (l₁ : List α) (l₂ : List β) (h : l₁.length = l₂.length) :
    (l₁.zip l₂).map Prod.snd = l₂ := by
  induction l₁ generalizing l₂ with
  | nil => cases l₂ with
    | nil => rfl
    | cons b bs => simp at h
  | cons a as ih =>
    cases l₂ with
    | nil => simp at h
    | cons b bs =>
      simp only [List.zip_cons_cons, List.map_cons]
      rw [ih bs (by simpa using h)]

lemma sum_map_scale (l : List ℚ) (s : ℚ) :
    (l.map (· * s)).sum = l.sum * s := by
  induction l with
  | nil => simp
  | cons a rest ih =>
    simp [ih]
    ring

lemma wordBaseDuration_pos (w : List Char) : 0 < wordBaseDuration w := by
  unfold wordBaseDuration
  have hlen : (0:ℚ) ≤ (w.length : ℚ) := Nat.cast_nonneg _
  have hsyl : (1:ℚ) ≤ (wordSyllables w : ℚ) := by
    exact_mod_cast le_max_left 1 (w.countP isVowel)
  have hp : 0 ≤ wordPunctPause w := by
    unfold wordPunctPause
    cases hg : w.getLast? with
    | none => norm_num
    | some c =>
      dsimp only
      split_ifs <;> norm_num
  nlinarith

lemma uniformAux_chain (avg : ℚ) (h : 0 ≤ avg) (ws : List (List Char))
    (t : ℚ) : startsMono (uniformAux avg ws t) := by
  induction ws generalizing t with
  | nil => simp [uniformAux, startsMono]
  | cons w rest ih =>
    cases rest with
    | nil => simp [uniformAux, startsMono]
    | cons w2 r2 =>
      simp only [uniformAux, startsMono, List.chain'_cons] at ih ⊢
      exact ⟨by linarith, ih (t + avg)⟩

lemma weightedAux_chain (l : List (List Char × ℚ)) (h : ∀ p ∈ l, 0 ≤ p.2)
    (t : ℚ) : startsMono (weightedAux l t) := by
  induction l generalizing t with
  | nil => simp [weightedAux, startsMono]
  | cons p rest ih =>
    rcases p with ⟨w, d⟩
    cases rest with
    | nil => simp [weightedAux, startsMono]
    | cons p2 r2 =>
      rcases p2 with ⟨w2, d2⟩
      have hd : (0:ℚ) ≤ d := h (w, d) (by simp)
      simp only [weightedAux, startsMono, List.chain'_cons] at ih ⊢
      refine ⟨by linarith, ?_⟩
      exact ih (fun p hp => h p (List.mem_cons_of_mem _ hp)) (t + d)

/-- C3: both timing-estimator policies return the empty sequence on
whitespace-only text; on text containing a non-whitespace character the word
durations sum exactly to the input duration; for a non-negative duration the
start times are monotonically non-decreasing; and the uniform policy on
`"a bb ccc"` with duration 3 yields three words each spanning exactly one
second, the last ending at 3. -/
theorem estimator_policies_spec :
    (∀ (text : List Char) (d : ℚ), (∀ c ∈ text, c.isWhitespace) →
      estimateWordTimingUniform text d = [] ∧
      estimateWordTimingWeighted text d = []) ∧
    (∀ (text : List Char) (d : ℚ) (c : Char), c ∈ text → ¬ c.isWhitespace →
      sumDur (estimateWordTimingUniform text d) = d ∧
      sumDur (estimateWordTimingWeighted text d) = d) ∧
    (∀ (text : List Char) (d : ℚ), 0 ≤ d →
      startsMono (estimateWordTimingUniform text d) ∧
      startsMono (estimateWordTimingWeighted text d)) ∧
    estimateWordTimingUniform ['a', ' ', 'b', 'b', ' ', 'c', 'c', 'c'] 3 =
      [⟨['a'], 0, 1⟩, ⟨['b', 'b'], 1, 2⟩, ⟨['c', 'c', 'c'], 2, 3⟩] := by
  refine ⟨?_, ?_, ?_, ?_⟩
  · intro text d h
    have hw := splitWords_eq_nil_of_whitespace text h
    constructor
    · simp [estimateWordTimingUniform, hw]
    · simp [estimateWordTimingWeighted, hw, weightedAux]
  · intro text d c hc hnw
    have hne := splitWords_ne_nil text c hc hnw
    have hlen : splitWords text ≠ [] → (splitWords text).length ≠ 0 := by
      intro h hl
      exact h (List.length_eq_zero.mp hl)
    have hn0 : ((splitWords text).length : ℚ) ≠ 0 := by
      exact_mod_cast hlen hne
    constructor
    · rw [estimateWordTimingUniform]
      simp only [if_neg (hlen hne)]
      rw [uniformAux_sumDur]
      field_simp
    · rw [estimateWordTimingWeighted]
      rw [weightedAux_sumDur, zip_map_snd _ _ (by simp), sum_map_scale]
      have hpos : 0 < ((splitWords text).map wordBaseDuration).sum := by
        apply List.sum_pos
        · intro a ha
          rcases List.mem_map.mp ha with ⟨w, _, rfl⟩
          exact wordBaseDuration_pos w
        · simpa using hne
      field_simp
  · intro text d hd
    constructor
    · rw [estimateWordTimingUniform]
      split_ifs with h
      · simp [startsMono]
      · apply uniformAux_chain
        positivity
    · rw [estimateWordTimingWeighted]
      apply weightedAux_chain
      intro p hp
      rcases List.of_mem_zip hp with ⟨_, hsnd⟩
      rcases List.mem_map.mp hsnd with ⟨q, hq, hEq⟩
      rcases List.mem_map.mp hq with ⟨w, _, rfl⟩
      rw [← hEq]
      have hpos := wordBaseDuration_pos w
      have hsum : 0 ≤ ((splitWords text).map wordBaseDuration).sum := by
        apply List.sum_nonneg
        intro a ha
        rcases List.mem_map.mp ha with ⟨w', _, rfl⟩
        exact le_of_lt (wordBaseDuration_pos w')
      positivity
  · have hw : splitWords ['a', ' ', 'b', 'b', ' ', 'c', 'c', 'c'] =
        [['a'], ['b', 'b'], ['c', 'c', 'c']] := by decide
    rw [estimateWordTimingUniform]
    rw [hw]
    norm_num [uniformAux]

/-- Witness for `estimator_policies_spec`: the hypotheses discharged at the
concrete inputs `" "` (whitespace-only), `"hi"` with duration 7, and
duration 2 for monotonicity. -/
theorem estimator_policies_spec_witness :
    estimateWordTimingUniform [' '] 5 = [] ∧
    sumDur (estimateWordTimingWeighted ['h', 'i'] 7) = 7 ∧
    startsMono (estimateWordTimingUniform ['h', 'i'] 2) := by
  refine ⟨?_, ?_, ?_⟩
  · exact (estimator_policies_spec.1 [' '] 5 (by decide)).1
  · exact (estimator_policies_spec.2.1 ['h', 'i'] 7 'h' (by decide) (by decide)).2
  · exact (estimator_policies_spec.2.2.1 ['h', 'i'] 2 (by norm_num)).1

/-- C4: the alignment step never fails outward. On every failing backend
outcome (thrown error, non-OK response, or zero word segments) the delivered
word timings are exactly the Timing Estimator's output for the clip text and
the measured duration; only a response with at least one segment is accepted
as real alignment. -/
theorem alignment_never_fails_outward :
    (∀ (outcome : AlignOutcome) (text : List Char) (d : ℚ),
      FailureOutcome outcome →
      getWhisperWordTimings outcome text d =
        estimateWordTimingUniform text d) ∧
    (∀ (segs : List WordSegment) (text : List Char) (d : ℚ), segs ≠ [] →
      getWhisperWordTimings (.ok segs) text d =
        segs.map (fun s => ⟨trimChars s.word, s.start, s.endT⟩)) := by
  constructor
  · intro outcome text d hfail
    cases outcome with
    | fetchError => rfl
    | notOk status => rfl
    | ok segs =>
      have : segs = [] := hfail
      subst this
      rfl
  · intro segs text d hne
    have hlen : 0 < segs.length := List.length_pos.mpr hne
    simp [getWhisperWordTimings, hlen]

/-- Witness for `alignment_never_fails_outward`: a concrete failing outcome
falls back to the estimator, and a concrete one-segment response is
delivered as-is. -/
theorem alignment_never_fails_outward_witness :
    getWhisperWordTimings .fetchError ['h', 'i'] 2 =
      estimateWordTimingUniform ['h', 'i'] 2 ∧
    getWhisperWordTimings (.ok [⟨['h', 'i'], 0, 2⟩]) ['h', 'i'] 2 =
      [⟨['h', 'i'], 0, 2⟩] := by
  constructor
  · exact alignment_never_fails_outward.1 .fetchError ['h', 'i'] 2 trivial
  · have h := alignment_never_fails_outward.2 [⟨['h', 'i'], 0, 2⟩]
      ['h', 'i'] 2 (by simp)
    rw [h]
    decide

lemma generateAudioGo_not_ok (text : List Char) (ch : Character)
    (outcomes : ℕ → AttemptResult) (retries fuel attempt : ℕ)
    (hno : (outcomes attempt).isOk = false) :
    generateAudioGo text ch outcomes retries (fuel + 1) attempt =
      if attempt = retries then
        ⟨.error (if (outcomes attempt).isAbort then .timeout ch
                 else .failed ch (retries + 1)), 1, []⟩
      else
        let r := generateAudioGo text ch outcomes retries fuel (attempt + 1)
        ⟨r.result, r.attempts + 1, ((2 : ℚ) ^ (attempt + 1)) :: r.waits⟩ := by
  cases ho : outcomes attempt
  case ok d =>
    rw [ho] at hno
    simp [AttemptResult.isOk] at hno
  all_goals simp [generateAudioGo, ho]

lemma range_map_pow_cons (attempt retries : ℕ) (h : attempt < retries) :
    (List.range (retries - attempt)).map
        (fun k => (2 : ℚ) ^ (attempt + 1 + k)) =
      ((2 : ℚ) ^ (attempt + 1)) ::
        (List.range (retries - (attempt + 1))).map
          (fun k => (2 : ℚ) ^ (attempt + 1 + 1 + k)) := by
  have hr : retries - attempt = (retries - (attempt + 1)) + 1 := by omega
  rw [hr, List.range_succ_eq_map, List.map_cons, List.map_map,
    List.cons_eq_cons]
  refine ⟨by norm_num, ?_⟩
  apply List.map_congr_left
  intro k _
  simp only [Function.comp_apply]
  congr 1
  omega

lemma generateAudioGo_all_fail (text : List Char) (ch : Character)
    (outcomes : ℕ → AttemptResult) (retries : ℕ) :
    ∀ fuel attempt, attempt + fuel = retries + 1 → 0 < fuel →
    (∀ a, a ≤ retries → (outcomes a).isOk = false) →
    generateAudioGo text ch outcomes retries fuel attempt =
      ⟨.error (if (outcomes retries).isAbort then .timeout ch
               else .failed ch (retries + 1)),
       fuel,
       (List.range (retries - attempt)).map
         (fun k => (2 : ℚ) ^ (attempt + 1 + k))⟩ := by
  intro fuel
  induction fuel with
  | zero => omega
  | succ f ih =>
    intro attempt hsum _ hfail
    have hno := hfail attempt (by omega)
    rw [generateAudioGo_not_ok text ch outcomes retries f attempt hno]
    by_cases he : attempt = retries
    · subst he
      have hf : f = 0 := by omega
      subst hf
      rw [if_pos rfl]
      simp
    · rw [if_neg he, ih (attempt + 1) (by omega) (by omega) hfail,
        range_map_pow_cons attempt retries (by omega)]

lemma generateAudio_all_fail (text : List Char) (ch : Character)
    (outcomes : ℕ → AttemptResult) (retries : ℕ)
    (hfail : ∀ a, a ≤ retries → (outcomes a).isOk = false) :
    generateAudio text ch outcomes retries =
      ⟨.error (if (outcomes retries).isAbort then .timeout ch
               else .failed ch (retries + 1)),
       retries + 1,
       (List.range retries).map (fun a => (2 : ℚ) ^ (a + 1))⟩ := by
  rw [generateAudio,
    generateAudioGo_all_fail text ch outcomes retries (retries + 1) 0
      (by omega) (by omega) hfail]
  congr 1
  rw [Nat.sub_zero]
  apply List.map_congr_left
  intro k _
  congr 1
  omega

lemma runBatches_head_error
    (f : ℕ → SpeechTask → Except SynthError AudioResult) (i : ℕ)
    (t : SpeechTask) (l : List (ℕ × SpeechTask)) (e : SynthError)
    (h : f i t = .error e) :
    runBatches f ((i, t) :: l) =
      (.error e, if l.isEmpty then 1 else 2) := by
  cases l with
  | nil => simp [runBatches, collectBatch, h]
  | cons p rest => simp [runBatches, collectBatch, h]

lemma runBatches_all_ok
    (f : ℕ → SpeechTask → Except SynthError AudioResult)
    (g : ℕ × SpeechTask → AudioResult) :
    ∀ (l : List (ℕ × SpeechTask)), (∀ p ∈ l, f p.1 p.2 = .ok (g p)) →
    runBatches f l = (.ok (l.map g), l.length)
  | [], _ => by simp [runBatches]
  | [t], h => by
    obtain ⟨i, tk⟩ := t
    have h1 := h (i, tk) (by simp)
    simp [runBatches, collectBatch, h1]
  | t₁ :: t₂ :: rest, h => by
    obtain ⟨i₁, tk₁⟩ := t₁
    obtain ⟨i₂, tk₂⟩ := t₂
    have h1 := h (i₁, tk₁) (by simp)
    have h2 := h (i₂, tk₂) (by simp)
    have ih := runBatches_all_ok f g rest
      (fun p hp => h p (by simp [hp]))
    simp [runBatches, collectBatch, h1, h2, ih]
    omega

lemma audioTasks_cons (turn : ConversationTurn)
    (rest : List ConversationTurn) :
    audioTasks (turn :: rest) =
      ⟨turn.stewie, .stewie⟩ :: ⟨turn.peter, .peter⟩ :: audioTasks rest := by
  simp [audioTasks]

lemma audioTasks_length (conversation : List ConversationTurn) :
    (audioTasks conversation).length = 2 * conversation.length := by
  induction conversation with
  | nil => rfl
  | cons turn rest ih =>
    rw [audioTasks_cons, List.length_cons, List.length_cons, ih,
      List.length_cons]
    omega

/-- C5: if every synthesis attempt fails, `generateAudio` makes exactly
`retries + 1` attempts (4 when `retries = 3`) with exponential backoff waits
`2^(a+1)` seconds, then throws the error naming the character and the
attempt count (the distinct timeout error when the final failure was an
abort); and the request fails with that synthesis error without the renderer
ever being invoked. -/
theorem synthesis_exhausts_retries :
    (∀ (text : List Char) (ch : Character) (outcomes : ℕ → AttemptResult)
        (retries : ℕ),
      (∀ a, a ≤ retries → (outcomes a).isOk = false) →
      generateAudio text ch outcomes retries =
        ⟨.error (if (outcomes retries).isAbort then .timeout ch
                 else .failed ch (retries + 1)),
         retries + 1,
         (List.range retries).map (fun a => (2 : ℚ) ^ (a + 1))⟩) ∧
    (∀ (env : PostEnv) (turn : ConversationTurn)
        (rest : List ConversationTurn),
      (∀ a, a ≤ 3 → (env.synth 0 a).isOk = false) →
      (runPOST env (turn :: rest)).1 =
        .error (.synthesis (if (env.synth 0 3).isAbort
          then .timeout .stewie else .failed .stewie 4)) ∧
      (runPOST env (turn :: rest)).2.renderCalled = false) := by
  constructor
  · intro text ch outcomes retries hfail
    exact generateAudio_all_fail text ch outcomes retries hfail
  · intro env turn rest hfail
    have hgen := generateAudio_all_fail turn.stewie .stewie (env.synth 0) 3
      hfail
    have hres : (generateAudio turn.stewie .stewie (env.synth 0) 3).result =
        .error (if (env.synth 0 3).isAbort then .timeout .stewie
                else .failed .stewie 4) := by
      rw [hgen]
    have htasks : (audioTasks (turn :: rest)).enum =
        (0, ⟨turn.stewie, .stewie⟩) ::
          (⟨turn.peter, .peter⟩ :: audioTasks rest).enumFrom 1 := by
      rw [audioTasks_cons]
      rfl
    have hrb := runBatches_head_error
      (fun i t => (generateAudio t.text t.character (env.synth i) 3).result)
      0 ⟨turn.stewie, .stewie⟩
      ((⟨turn.peter, .peter⟩ :: audioTasks rest).enumFrom 1)
      (if (env.synth 0 3).isAbort then .timeout .stewie
       else .failed .stewie 4)
      (by exact hres)
    simp only [runPOST, List.length_cons]
    rw [if_neg (by omega), htasks, hrb]
    exact ⟨rfl, rfl⟩

/-- Witness for `synthesis_exhausts_retries`: a backend that always returns
HTTP 500 exhausts the four attempts, produces the error naming stewie and
4 attempts, and the renderer is not called. -/
theorem synthesis_exhausts_retries_witness :
    generateAudio ['h'] .stewie (fun _ => .httpError 500) 3 =
      ⟨.error (.failed .stewie 4), 4, [2, 4, 8]⟩ ∧
    (runPOST ⟨fun _ _ => .httpError 500, fun _ => .ok [], true, true, true,
        true, true⟩ [⟨['h'], ['i'], []⟩]).1 =
      .error (.synthesis (.failed .stewie 4)) ∧
    (runPOST ⟨fun _ _ => .httpError 500, fun _ => .ok [], true, true, true,
        true, true⟩ [⟨['h'], ['i'], []⟩]).2.renderCalled = false := by
  have h1 := synthesis_exhausts_retries.1 ['h'] .stewie
    (fun _ => .httpError 500) 3 (fun _ _ => rfl)
  have h2 := synthesis_exhausts_retries.2
    ⟨fun _ _ => .httpError 500, fun _ => .ok [], true, true, true, true,
      true⟩ ⟨['h'], ['i'], []⟩ [] (fun _ _ => rfl)
  refine ⟨?_, ?_, h2.2⟩
  · rw [h1]
    norm_num [AttemptResult.isAbort, List.range_succ]
  · rw [h2.1]
    simp [AttemptResult.isAbort]

lemma audioTasks_get_pair :
    ∀ (conversation : List ConversationTurn) (k : ℕ)
      (hk : k < conversation.length)
      (h2 : 2 * k < (audioTasks conversation).length)
      (h3 : 2 * k + 1 < (audioTasks conversation).length),
      (audioTasks conversation).get ⟨2 * k, h2⟩ =
        ⟨(conversation.get ⟨k, hk⟩).stewie, .stewie⟩ ∧
      (audioTasks conversation).get ⟨2 * k + 1, h3⟩ =
        ⟨(conversation.get ⟨k, hk⟩).peter, .peter⟩
  | turn :: rest, 0, _, _, _ => by
    constructor <;> simp [audioTasks_cons]
  | turn :: rest, k + 1, hk, h2, h3 => by
    have hk' : k < rest.length := by simpa using hk
    have hl2 : 2 * k < (audioTasks rest).length := by
      rw [audioTasks_length]; omega
    have hl3 : 2 * k + 1 < (audioTasks rest).length := by
      rw [audioTasks_length]; omega
    have ih := audioTasks_get_pair rest k hk' hl2 hl3
    have he : 2 * (k + 1) = 2 * k + 1 + 1 := by ring
    constructor
    · have := ih.1
      simp only [audioTasks_cons, List.get_eq_getElem] at this ⊢
      simp only [he]
      simpa using this
    · have := ih.2
      simp only [audioTasks_cons, List.get_eq_getElem] at this ⊢
      simp only [he]
      simpa using this

/-- C9: flattening an `N`-turn conversation yields exactly `2N` speech
tasks, ordered stewie-then-peter per turn in turn order, and the batched
synthesis loop preserves exactly that order in the collected audio results
whenever every task synthesizes successfully. -/
theorem task_flattening_order (conversation : List ConversationTurn) :
    (audioTasks conversation).length = 2 * conversation.length ∧
    (∀ k (hk : k < conversation.length),
      (audioTasks conversation).get
          ⟨2 * k, by rw [audioTasks_length]; omega⟩ =
        ⟨(conversation.get ⟨k, hk⟩).stewie, .stewie⟩ ∧
      (audioTasks conversation).get
          ⟨2 * k + 1, by rw [audioTasks_length]; omega⟩ =
        ⟨(conversation.get ⟨k, hk⟩).peter, .peter⟩) ∧
    (∀ (f : ℕ → SpeechTask → Except SynthError AudioResult)
        (g : ℕ × SpeechTask → AudioResult),
      (∀ p ∈ (audioTasks conversation).enum, f p.1 p.2 = .ok (g p)) →
      runBatches f (audioTasks conversation).enum =
        (.ok ((audioTasks conversation).enum.map g),
         2 * conversation.length)) := by
  refine ⟨audioTasks_length conversation, ?_, ?_⟩
  · intro k hk
    exact audioTasks_get_pair conversation k hk _ _
  · intro f g hok
    rw [runBatches_all_ok f g _ hok, List.enum_length,
      audioTasks_length]

/-- Witness for `task_flattening_order` at a one-turn conversation with an
always-succeeding backend. -/
theorem task_flattening_order_witness :
    (audioTasks [⟨['a'], ['b'], []⟩]).get ⟨0, by decide⟩ =
      ⟨['a'], .stewie⟩ ∧
    (audioTasks [⟨['a'], ['b'], []⟩]).get ⟨1, by decide⟩ =
      ⟨['b'], .peter⟩ ∧
    runBatches (fun _ t => .ok ⟨1, t.character, t.text⟩)
        (audioTasks [⟨['a'], ['b'], []⟩]).enum =
      (.ok [⟨1, .stewie, ['a']⟩, ⟨1, .peter, ['b']⟩], 2) := by
  have h := task_flattening_order [⟨['a'], ['b'], []⟩]
  have h2 := h.2.1 0 (by decide)
  refine ⟨h2.1, h2.2, ?_⟩
  have h3 := h.2.2 (fun _ t => .ok ⟨1, t.character, t.text⟩)
    (fun p => ⟨1, p.2.character, p.2.text⟩) (fun p _ => rfl)
  rw [h3]
  rfl

lemma generateAudio_first_ok (text : List Char) (ch : Character)
    (outcomes : ℕ → AttemptResult) (retries : ℕ) (d : ℚ)
    (h : outcomes 0 = .ok d) :
    generateAudio text ch outcomes retries = ⟨.ok ⟨d, ch, text⟩, 1, []⟩ := by
  rw [generateAudio]
  show generateAudioGo text ch outcomes retries (retries + 1) 0 = _
  simp [generateAudioGo, h]

lemma runPOST_all_synth_ok (env : PostEnv)
    (conversation : List ConversationTurn) (dur : ℕ → ℚ)
    (hne : conversation.length ≠ 0)
    (hsyn : ∀ i, env.synth i 0 = .ok (dur i)) :
    runPOST env conversation =
      (let results := (audioTasks conversation).enum.map
          (fun p => (⟨dur p.1, p.2.character, p.2.text⟩ : AudioResult));
       let calls := 2 * conversation.length;
       let audioWritten := (List.range results.length).map ScratchFile.audio;
       let written₀ := ScratchFile.tempDir :: audioWritten;
       let files := (buildTimeline results).1;
       let total := (buildTimeline results).2 - GAP_DURATION + 1;
       if env.backgroundExists = false then
         (.error .missingBackground, ⟨calls, false, written₀, []⟩)
       else if env.stewieImageExists = false then
         (.error .missingStewie, ⟨calls, false, written₀, []⟩)
       else if env.peterImageExists = false then
         (.error .missingPeter, ⟨calls, false, written₀, []⟩)
       else if env.concatOk = false then
         (.error .concatFailed, ⟨calls, false, written₀, []⟩)
       else
         let written₁ := written₀ ++ [.combinedAudio, .subtitles]
         if env.renderOk = false then
           (.error .renderFailed, ⟨calls, true, written₁, []⟩)
         else
           (.ok ⟨mkWordTimeline env.align files, mkCharacterTimeline files,
               total⟩,
             ⟨calls, true, written₁ ++ [.output],
               audioWritten ++
                 [.output, .combinedAudio, .subtitles, .tempDir]⟩)) := by
  have hrb := runBatches_all_ok
    (fun i t => (generateAudio t.text t.character (env.synth i) 3).result)
    (fun p => ⟨dur p.1, p.2.character, p.2.text⟩)
    (audioTasks conversation).enum
    (fun p _ => by
      dsimp only
      rw [generateAudio_first_ok p.2.text p.2.character (env.synth p.1) 3
        (dur p.1) (hsyn p.1)])
  simp only [runPOST]
  rw [if_neg hne, hrb, List.enum_length, audioTasks_length]

/-- C7 counterexample: with the background video absent and a healthy TTS
backend, a one-turn request fails with the missing-asset error only after
both synthesis calls were made — the claim that no TTS call happens is
false. -/
theorem missing_asset_counterexample :
    (runPOST ⟨fun _ _ => .ok 1, fun _ => .ok [], false, true, true, true,
        true⟩ [⟨['a'], ['b'], []⟩]).1 = .error .missingBackground ∧
    (runPOST ⟨fun _ _ => .ok 1, fun _ => .ok [], false, true, true, true,
        true⟩ [⟨['a'], ['b'], []⟩]).2.ttsCalls = 2 := by
  constructor <;> rfl

/-- C7 (amended): if the background video or either character image is
absent, the request fails with the missing-asset error of the first failing
check (background, then the stewie image, then the peter image, the order of
`route.ts` lines 337-340) and the renderer is never invoked — but the check
happens only after synthesis: all `2N` TTS tasks are started first. -/
theorem missing_asset_fails_after_synthesis (env : PostEnv)
    (conversation : List ConversationTurn) (dur : ℕ → ℚ)
    (hne : conversation ≠ [])
    (hsyn : ∀ i, env.synth i 0 = .ok (dur i))
    (hmiss : env.backgroundExists = false ∨ env.stewieImageExists = false ∨
      env.peterImageExists = false) :
    (runPOST env conversation).1 = .error
      (if env.backgroundExists = false then .missingBackground
       else if env.stewieImageExists = false then .missingStewie
       else .missingPeter) ∧
    (runPOST env conversation).2.ttsCalls = 2 * conversation.length ∧
    (runPOST env conversation).2.renderCalled = false := by
  have hlen : conversation.length ≠ 0 := by
    simpa [List.length_eq_zero] using hne
  rw [runPOST_all_synth_ok env conversation dur hlen hsyn]
  cases hbg : env.backgroundExists with
  | false => exact ⟨rfl, rfl, rfl⟩
  | true =>
    cases hst : env.stewieImageExists with
    | false => exact ⟨rfl, rfl, rfl⟩
    | true =>
      cases hpt : env.peterImageExists with
      | false => exact ⟨rfl, rfl, rfl⟩
      | true =>
        rw [hbg, hst, hpt] at hmiss
        simp at hmiss

/-- Witness for `missing_asset_fails_after_synthesis` at concrete one-turn
inputs, one for each absent asset: missing background, missing stewie
image, missing peter image. -/
theorem missing_asset_fails_after_synthesis_witness :
    (runPOST ⟨fun _ _ => .ok 2, fun _ => .ok [], false, true, true, true,
        true⟩ [⟨['x'], ['y'], []⟩]).1 = .error .missingBackground ∧
    (runPOST ⟨fun _ _ => .ok 2, fun _ => .ok [], true, false, true, true,
        true⟩ [⟨['x'], ['y'], []⟩]).1 = .error .missingStewie ∧
    (runPOST ⟨fun _ _ => .ok 2, fun _ => .ok [], true, true, false, true,
        true⟩ [⟨['x'], ['y'], []⟩]).1 = .error .missingPeter ∧
    (runPOST ⟨fun _ _ => .ok 2, fun _ => .ok [], false, true, true, true,
        true⟩ [⟨['x'], ['y'], []⟩]).2.ttsCalls = 2 * 1 := by
  have h1 := missing_asset_fails_after_synthesis
    ⟨fun _ _ => .ok 2, fun _ => .ok [], false, true, true, true, true⟩
    [⟨['x'], ['y'], []⟩] (fun _ => 2) (by simp) (fun _ => rfl) (Or.inl rfl)
  have h2 := missing_asset_fails_after_synthesis
    ⟨fun _ _ => .ok 2, fun _ => .ok [], true, false, true, true, true⟩
    [⟨['x'], ['y'], []⟩] (fun _ => 2) (by simp) (fun _ => rfl)
    (Or.inr (Or.inl rfl))
  have h3 := missing_asset_fails_after_synthesis
    ⟨fun _ _ => .ok 2, fun _ => .ok [], true, true, false, true, true⟩
    [⟨['x'], ['y'], []⟩] (fun _ => 2) (by simp) (fun _ => rfl)
    (Or.inr (Or.inr rfl))
  exact ⟨h1.1, h2.1, h3.1, h1.2.1⟩

/-- C8 counterexample: a failing request (background video absent) leaves
its scratch artifacts behind — the temp directory and both per-line audio
files were written and nothing is deleted, refuting cleanup on every exit
path. -/
theorem cleanup_failure_counterexample :
    (runPOST ⟨fun _ _ => .ok 1, fun _ => .ok [], false, true, true, true,
        true⟩ [⟨['c'], ['d'], []⟩]).1 = .error .missingBackground ∧
    (runPOST ⟨fun _ _ => .ok 1, fun _ => .ok [], false, true, true, true,
        true⟩ [⟨['c'], ['d'], []⟩]).2.written =
      [.tempDir, .audio 0, .audio 1] ∧
    (runPOST ⟨fun _ _ => .ok 1, fun _ => .ok [], false, true, true, true,
        true⟩ [⟨['c'], ['d'], []⟩]).2.deleted = [] := by
  refine ⟨rfl, rfl, rfl⟩

/-- C8 (amended): scratch artifacts are all deleted on the success exit path
(the deleted set equals the written set); on every failure exit path nothing
is deleted, so artifacts written before the error are left behind. -/
theorem cleanup_success_path_only (env : PostEnv)
    (conversation : List ConversationTurn) :
    (∀ ps, (runPOST env conversation).1 = .ok ps →
      ∀ s, s ∈ (runPOST env conversation).2.written ↔
        s ∈ (runPOST env conversation).2.deleted) ∧
    (∀ e, (runPOST env conversation).1 = .error e →
      (runPOST env conversation).2.deleted = []) := by
  simp only [runPOST]
  by_cases h0 : conversation.length = 0
  · rw [if_pos h0]
    exact ⟨fun ps hps => by simp at hps, fun e _ => rfl⟩
  · rw [if_neg h0]
    rcases hrb : runBatches
        (fun i t => (generateAudio t.text t.character (env.synth i) 3).result)
        (audioTasks conversation).enum with ⟨res, calls⟩
    clear hrb
    cases res with
    | error e => exact ⟨fun ps hps => by simp at hps, fun _ _ => rfl⟩
    | ok results =>
      cases hbg : env.backgroundExists with
      | false => exact ⟨fun ps hps => by simp at hps, fun _ _ => rfl⟩
      | true =>
        cases hst : env.stewieImageExists with
        | false => exact ⟨fun ps hps => by simp at hps, fun _ _ => rfl⟩
        | true =>
          cases hpt : env.peterImageExists with
          | false => exact ⟨fun ps hps => by simp at hps, fun _ _ => rfl⟩
          | true =>
            cases hcc : env.concatOk with
            | false => exact ⟨fun ps hps => by simp at hps, fun _ _ => rfl⟩
            | true =>
              cases hrd : env.renderOk with
              | false => exact ⟨fun ps hps => by simp at hps, fun _ _ => rfl⟩
              | true =>
                refine ⟨fun ps _ s => ?_, fun e he => by simp at he⟩
                show s ∈ ScratchFile.tempDir ::
                    (List.range results.length).map ScratchFile.audio ++
                    [ScratchFile.combinedAudio, ScratchFile.subtitles] ++
                    [ScratchFile.output] ↔
                  s ∈ (List.range results.length).map ScratchFile.audio ++
                    [ScratchFile.output, ScratchFile.combinedAudio,
                     ScratchFile.subtitles, ScratchFile.tempDir]
                simp only [List.mem_cons, List.mem_append,
                  List.mem_singleton, List.cons_append, List.nil_append]
                tauto

/-- Witness for `cleanup_success_path_only`: on a fully successful one-turn
request the subtitle file is both written and deleted. -/
theorem cleanup_success_path_only_witness :
    (∃ ps, (runPOST ⟨fun _ _ => .ok 1, fun _ => .ok [], true, true, true,
        true, true⟩ [⟨['c'], ['d'], []⟩]).1 = .ok ps) ∧
    (ScratchFile.subtitles ∈
      (runPOST ⟨fun _ _ => .ok 1, fun _ => .ok [], true, true, true,
        true, true⟩ [⟨['c'], ['d'], []⟩]).2.deleted) := by
  constructor
  · exact ⟨_, rfl⟩
  · have h := (cleanup_success_path_only
      ⟨fun _ _ => .ok 1, fun _ => .ok [], true, true, true, true, true⟩
      [⟨['c'], ['d'], []⟩]).1 _ rfl ScratchFile.subtitles
    rw [← h]
    decide

lemma filterMap_if {α β : Type} (P : α → Prop) [DecidablePred P]
    (F : α → β) (l : List α) :
    l.filterMap (fun a => if P a then some (F a) else none) =
      (l.filter (fun a => decide (P a))).map F := by
  induction l with
  | nil => rfl
  | cons a rest ih =>
    by_cases h : P a
    · simp [List.filterMap_cons, List.filter_cons, h, ih]
    · simp [List.filterMap_cons, List.filter_cons, h, ih]

lemma flatMap_ext {α β : Type} (l : List α) (f g : α → List β)
    (h : ∀ a ∈ l, f a = g a) : l.flatMap f = l.flatMap g := by
  induction l with
  | nil => rfl
  | cons a rest ih =>
    simp only [List.flatMap_cons]
    rw [h a (by simp), ih (fun a ha => h a (by simp [ha]))]

lemma filter_flatMap {α β : Type} (l : List α) (f : α → List β)
    (q : β → Bool) :
    (l.flatMap f).filter q = l.flatMap (fun a => (f a).filter q) := by
  induction l with
  | nil => rfl
  | cons a rest ih =>
    simp only [List.flatMap_cons, List.filter_append, ih]

lemma processImageOverlays_closed (conversation : List ConversationTurn)
    (saved : List (List Char)) (audioFiles : List AudioFileData) :
    processImageOverlays conversation saved audioFiles =
      conversation.enum.flatMap (fun p =>
        (p.2.imageOverlays.filter
            (fun c => decide (c.filename ∈ saved))).map
          (fun cue => ⟨cue.filename,
            turnStartTime p.1 audioFiles + cue.startTime,
            turnStartTime p.1 audioFiles + cue.startTime + cue.duration,
            cue.description⟩)) := by
  unfold processImageOverlays
  apply flatMap_ext
  intro p _
  by_cases h : p.2.imageOverlays.length > 0
  · rw [if_pos h, filterMap_if]
  · rw [if_neg h]
    have : p.2.imageOverlays = [] := by
      simpa using Nat.le_zero.mp (Nat.not_lt.mp h)
    rw [this]
    rfl

/-- C6 counterexample: a video-typed media file is provided and a cue of the
first turn references it by filename, yet no overlay interval is created at
all — the saving step stores only image-typed files, so there is no
video-passthrough path and the claimed "created iff the filename resolves to
a provided asset" fails for video cues. -/
theorem media_cue_video_counterexample :
    savedMediaFilenames [⟨['v'], .video⟩] = [] ∧
    processImageOverlays [⟨['a'], ['b'], [⟨['v'], 0, 4, []⟩]⟩]
      (savedMediaFilenames [⟨['v'], .video⟩])
      (buildTimeline [⟨2, .stewie, ['a']⟩, ⟨2, .peter, ['b']⟩]).1 = [] := by
  exact ⟨rfl, rfl⟩

/-- C6 (amended): an overlay interval is created if and only if the cue's
filename is among the saved assets, which contain exactly the image-typed
uploads (video-typed files are never saved, so video cues are always
silently dropped, as is any cue with an unresolved filename); every created
interval starts at the owning turn's resolved start plus the cue offset and
ends exactly `cue.duration` later (finite endTime). -/
theorem media_overlays_planner (conversation : List ConversationTurn)
    (mediaFiles : List MediaFileInput) (audioFiles : List AudioFileData) :
    (∀ o ∈ processImageOverlays conversation
        (savedMediaFilenames mediaFiles) audioFiles,
      ∃ k turn cue, conversation[k]? = some turn ∧
        cue ∈ turn.imageOverlays ∧
        cue.filename ∈ savedMediaFilenames mediaFiles ∧
        o = ⟨cue.filename,
          turnStartTime k audioFiles + cue.startTime,
          turnStartTime k audioFiles + cue.startTime + cue.duration,
          cue.description⟩) ∧
    (∀ k turn cue, conversation[k]? = some turn →
      cue ∈ turn.imageOverlays →
      cue.filename ∈ savedMediaFilenames mediaFiles →
      (⟨cue.filename, turnStartTime k audioFiles + cue.startTime,
        turnStartTime k audioFiles + cue.startTime + cue.duration,
        cue.description⟩ : MediaOverlayInterval) ∈
        processImageOverlays conversation (savedMediaFilenames mediaFiles)
          audioFiles) ∧
    (∀ f ∈ savedMediaFilenames mediaFiles,
      ∃ m ∈ mediaFiles, m.filename = f ∧ m.mediaType = .image) ∧
    (processImageOverlays conversation (savedMediaFilenames mediaFiles)
        audioFiles).length =
      ((conversation.flatMap (fun t => t.imageOverlays)).filter
        (fun c => decide (c.filename ∈ savedMediaFilenames mediaFiles))
        ).length := by
  refine ⟨?_, ?_, ?_, ?_⟩
  · intro o ho
    rw [processImageOverlays_closed] at ho
    rcases List.mem_flatMap.mp ho with ⟨p, hp, hmem⟩
    rcases List.mem_map.mp hmem with ⟨cue, hcue, rfl⟩
    rcases List.mem_filter.mp hcue with ⟨hcmem, hsaved⟩
    refine ⟨p.1, p.2, cue, ?_, hcmem, by simpa using hsaved, rfl⟩
    exact List.mk_mem_enum_iff_getElem?.mp (by simpa using hp)
  · intro k turn cue hk hcue hsaved
    rw [processImageOverlays_closed]
    apply List.mem_flatMap.mpr
    refine ⟨(k, turn), List.mk_mem_enum_iff_getElem?.mpr hk, ?_⟩
    apply List.mem_map.mpr
    exact ⟨cue, List.mem_filter.mpr ⟨hcue, by simpa using hsaved⟩, rfl⟩
  · intro f hf
    rcases List.mem_map.mp hf with ⟨m, hm, rfl⟩
    rcases List.mem_filter.mp hm with ⟨hmm, hty⟩
    exact ⟨m, hmm, rfl, by simpa using hty⟩
  · rw [processImageOverlays_closed, List.length_flatMap,
      filter_flatMap, List.length_flatMap]
    conv_rhs => rw [← List.enum_map_snd conversation, List.map_map]
    apply congrArg List.sum
    apply List.map_congr_left
    intro p _
    simp [Function.comp, List.length_map]

/-- Witness for `media_overlays_planner`: a one-image upload with a matching
cue produces exactly the interval starting at offset 1 and ending at 5. -/
theorem media_overlays_planner_witness :
    (⟨['i'], 0 + 1, 0 + 1 + 4, []⟩ : MediaOverlayInterval) ∈
      processImageOverlays [⟨['a'], ['b'], [⟨['i'], 1, 4, []⟩]⟩]
        (savedMediaFilenames [⟨['i'], .image⟩]) [] ∧
    (∃ m ∈ [(⟨['i'], .image⟩ : MediaFileInput)],
      m.filename = ['i'] ∧ m.mediaType = .image) := by
  constructor
  · have h := (media_overlays_planner [⟨['a'], ['b'], [⟨['i'], 1, 4, []⟩]⟩]
      [⟨['i'], .image⟩] []).2.1 0 ⟨['a'], ['b'], [⟨['i'], 1, 4, []⟩]⟩
      ⟨['i'], 1, 4, []⟩ rfl (by simp) (by decide)
    simpa [turnStartTime] using h
  · have h := (media_overlays_planner [⟨['a'], ['b'], [⟨['i'], 1, 4, []⟩]⟩]
      [⟨['i'], .image⟩] []).2.2.1 ['i'] (by decide)
    exact h

lemma escape_char_cases (c : Char) :
    replaceChar '\x7d' ['\\', '\x7d']
      (replaceChar '\x7b' ['\\', '\x7b'] (charRep '\\' ['\\', '\\'] c)) =
    escChar c := by
  by_cases h1 : c = '\\'
  · subst h1
    decide
  · by_cases h2 : c = '\x7b'
    · subst h2
      decide
    · by_cases h3 : c = '\x7d'
      · subst h3
        decide
      · simp [charRep, replaceChar, escChar, h1, h2, h3]

lemma escapeAssText_flatMap (cs : List Char) :
    escapeAssText cs = cs.flatMap escChar := by
  induction cs with
  | nil => rfl
  | cons c rest ih =>
    simp only [escapeAssText, replaceChar] at ih ⊢
    rw [List.flatMap_cons, List.flatMap_append, List.flatMap_append,
      List.flatMap_cons, ih]
    congr 1
    exact escape_char_cases c

lemma splitOnChar_ne_nil (sep : Char) (cs : List Char) :
    splitOnChar sep cs ≠ [] := by
  cases cs with
  | nil => simp [splitOnChar]
  | cons c rest =>
    by_cases h : c = sep
    · simp [splitOnChar, h]
    · simp only [splitOnChar, if_neg h]
      cases splitOnChar sep rest <;> simp

lemma splitOnChar_length (sep : Char) (cs : List Char) :
    (splitOnChar sep cs).length = cs.count sep + 1 := by
  induction cs with
  | nil => simp [splitOnChar]
  | cons c rest ih =>
    by_cases h : c = sep
    · subst h
      simp [splitOnChar, ih, List.count_cons]
    · simp only [splitOnChar, if_neg h]
      rcases hs : splitOnChar sep rest with _ | ⟨w, ws⟩
      · exact absurd hs (splitOnChar_ne_nil sep rest)
      · rw [hs] at ih
        simp only [List.length_cons] at ih ⊢
        rw [List.count_cons]
        simp [h, ih]

lemma count_joinWith (sep : Char) :
    ∀ (ls : List (List Char)), (∀ l ∈ ls, sep ∉ l) → ls ≠ [] →
    (joinWith sep ls).count sep = ls.length - 1
  | [], _, hne => absurd rfl hne
  | [l], h, _ => by
    simp [joinWith, List.count_eq_zero_of_not_mem (h l (by simp))]
  | l :: l₂ :: rest, h, _ => by
    have ih := count_joinWith sep (l₂ :: rest)
      (fun x hx => h x (by simp [hx])) (by simp)
    simp only [joinWith, List.count_append, List.count_cons]
    rw [List.count_eq_zero_of_not_mem (h l (by simp)), ih]
    simp

lemma trimChars_subset (w : List Char) : ∀ c ∈ trimChars w, c ∈ w := by
  intro c hc
  unfold trimChars at hc
  rw [List.mem_reverse] at hc
  have h1 := (List.dropWhile_sublist _).subset hc
  rw [List.mem_reverse] at h1
  exact (List.dropWhile_sublist _).subset h1

lemma natCharsAux_digits :
    ∀ fuel n c, c ∈ natCharsAux fuel n → ∃ k, k < 10 ∧ c = digitChar k := by
  intro fuel
  induction fuel with
  | zero =>
    intro n c hc
    simp [natCharsAux] at hc
  | succ f ih =>
    intro n c hc
    by_cases h : n < 10
    · simp [natCharsAux, h] at hc
      exact ⟨n, h, hc⟩
    · simp only [natCharsAux, if_neg h, List.mem_append,
        List.mem_singleton] at hc
      rcases hc with hc | hc
      · exact ih (n / 10) c hc
      · exact ⟨n % 10, Nat.mod_lt _ (by norm_num), hc⟩

lemma newline_not_digitChar (k : ℕ) (hk : k < 10) : digitChar k ≠ '\n' := by
  interval_cases k <;> decide

lemma newline_not_mem_natChars (n : ℕ) : '\n' ∉ natChars n := by
  intro hc
  rcases natCharsAux_digits (n + 1) n '\n' hc with ⟨k, hk, he⟩
  exact newline_not_digitChar k hk he.symm

lemma newline_not_mem_intChars (i : ℤ) : '\n' ∉ intChars i := by
  unfold intChars
  split_ifs
  · intro hc
    rcases List.mem_cons.mp hc with h | h
    · exact absurd h (by decide)
    · exact newline_not_mem_natChars _ h
  · exact newline_not_mem_natChars _

lemma newline_not_mem_padStart2 (cs : List Char) (h : '\n' ∉ cs) :
    '\n' ∉ padStart2 cs := by
  unfold padStart2
  intro hc
  rcases List.mem_append.mp hc with hm | hm
  · have := List.eq_of_mem_replicate hm
    exact absurd this (by decide)
  · exact h hm

lemma newline_not_mem_formatAssTime (q : ℚ) : '\n' ∉ formatAssTime q := by
  unfold formatAssTime
  intro hc
  simp only [List.mem_append, List.mem_cons] at hc
  have h1 := newline_not_mem_intChars (jsFloor (q / 3600))
  have h2 := newline_not_mem_padStart2 _
    (newline_not_mem_intChars (jsFloor (jsMod q 3600 / 60)))
  have h3 := newline_not_mem_padStart2 _
    (newline_not_mem_intChars (jsFloor (jsMod q 60)))
  have h4 := newline_not_mem_padStart2 _
    (newline_not_mem_intChars (jsFloor (jsMod q 1 * 100)))
  have e1 : ('\n' : Char) ≠ ':' := by decide
  have e2 : ('\n' : Char) ≠ '.' := by decide
  tauto

lemma newline_not_mem_escape (l : List Char) (h : '\n' ∉ l) :
    '\n' ∉ escapeAssText l := by
  rw [escapeAssText_flatMap]
  intro hc
  rcases List.mem_flatMap.mp hc with ⟨c, hcl, hmem⟩
  unfold escChar at hmem
  split_ifs at hmem with h1 h2 h3
  · rcases List.mem_cons.mp hmem with hm | hm <;>
      simp at hm
  · rcases List.mem_cons.mp hmem with hm | hm <;>
      simp at hm
  · rcases List.mem_cons.mp hmem with hm | hm <;>
      simp at hm
  · rw [List.mem_singleton] at hmem
    exact h (hmem ▸ hcl)

lemma newline_not_mem_assEventLine (w : WordTiming)
    (h : ('\n' : Char) ∉ w.text) : '\n' ∉ assEventLine w := by
  unfold assEventLine
  intro hc
  simp only [List.mem_append] at hc
  rcases hc with ((((((((h1 | h2) | h3) | h4) | h5) | h6) | h7) | h8) | h9)
  · exact absurd h1 (by decide)
  · exact newline_not_mem_formatAssTime _ h2
  · exact absurd h3 (by decide)
  · exact newline_not_mem_formatAssTime _ h4
  · exact absurd h5 (by decide)
  · cases hch : w.character <;> rw [hch] at h6 <;>
      exact absurd h6 (by decide)
  · exact absurd h7 (by decide)
  · exact absurd h8 (by decide)
  · exact newline_not_mem_escape _
      (fun hm => h (trimChars_subset w.text _ hm)) h9

/-- C10 counterexample: a word whose text contains a newline produces an
event line that itself contains a raw newline (only backslash and braces are
escaped), so the serialized events section splits into two lines for one
word — the track is not well-formed for all word texts. -/
theorem subtitle_newline_counterexample :
    ('\n' ∈ assEventLine ⟨['a', '\n', 'b'], 0, 1, .stewie⟩) ∧
    (splitOnChar '\n' (joinWith '\n'
      ([(⟨['a', '\n', 'b'], 0, 1, .stewie⟩ : WordTiming)].map assEventLine))
      ).length ≠ 1 := by
  have hesc : '\n' ∈ escapeAssText (trimChars ['a', '\n', 'b']) := by decide
  have hmem : '\n' ∈ assEventLine ⟨['a', '\n', 'b'], 0, 1, .stewie⟩ := by
    unfold assEventLine
    exact List.mem_append_right _ hesc
  refine ⟨hmem, ?_⟩
  have hcount : 0 <
      (joinWith '\n' ([(⟨['a', '\n', 'b'], 0, 1, .stewie⟩ : WordTiming)].map
        assEventLine)).count '\n' := by
    apply List.count_pos_iff_mem.mpr
    simpa [joinWith] using hmem
  rw [splitOnChar_length]
  omega

/-- C10 (amended): the serializer emits exactly one subtitle event per word,
each styled by one of exactly two fixed styles according to the word's
character; the escaping pass rewrites exactly the backslash and the two
braces; and the serialized events section has exactly one line per word for
every timeline whose word texts contain no newline (a raw newline in a word
text breaks the line structure, as the counterexample shows). -/
theorem subtitle_serializer_spec (wordTimeline : List WordTiming) :
    (wordTimeline.map assEventLine).length = wordTimeline.length ∧
    (∀ ch : Character,
      styleName ch = "Stewie".data ∨ styleName ch = "Peter".data) ∧
    (∀ cs : List Char, escapeAssText cs = cs.flatMap escChar) ∧
    (wordTimeline ≠ [] → (∀ w ∈ wordTimeline, ('\n' : Char) ∉ w.text) →
      (splitOnChar '\n'
        (joinWith '\n' (wordTimeline.map assEventLine))).length =
        wordTimeline.length) := by
  refine ⟨List.length_map _ _, ?_, escapeAssText_flatMap, ?_⟩
  · intro ch
    cases ch
    · exact Or.inl rfl
    · exact Or.inr rfl
  · intro hne hnn
    rw [splitOnChar_length, count_joinWith '\n' _ ?_ ?_]
    · rw [List.length_map]
      have : wordTimeline.length ≠ 0 := by
        simpa [List.length_eq_zero] using hne
      omega
    · intro l hl
      rcases List.mem_map.mp hl with ⟨w, hw, rfl⟩
      exact newline_not_mem_assEventLine w (hnn w hw)
    · simpa using hne

/-- Witness for `subtitle_serializer_spec`: a one-word timeline without
newlines serializes to exactly one event line. -/
theorem subtitle_serializer_spec_witness :
    (splitOnChar '\n' (joinWith '\n'
      ([(⟨['h', 'i'], 0, 1, .stewie⟩ : WordTiming)].map assEventLine))
      ).length = 1 := by
  have h := (subtitle_serializer_spec
    [(⟨['h', 'i'], 0, 1, .stewie⟩ : WordTiming)]).2.2.2
    (by simp)
    (by
      intro w hw
      rw [List.mem_singleton] at hw
      subst hw
      decide)
  simpa using h

end Goonly
